import Mathlib

/-!
# lsst/base.h : the `PTR` and `CONST_PTR` shared-pointer abbreviations

`include/lsst/base.h` is a header whose whole content is preprocessor
directives: an include guard, one `#include` and two variadic function-like
macro definitions.  The header is therefore a small program *for the C
preprocessor*, and it is embedded here as such:

* preprocessing tokens are their spellings (`Token`);
* a macro definition is a `MacroDef` (object-like, or function-like with its
  named parameters, its variadic flag and its replacement list);
* the header is the list of its directives (`baseH`), run by a directive
  interpreter (`run`) over a preprocessor state (macro table, emitted tokens,
  stack of open conditional groups);
* source text is macro-replaced as the preprocessor does it (`expand`): the
  arguments of an invocation are collected up to the matching parenthesis
  (`collectArgs`), completely macro-replaced, and substituted into the
  replacement list (`substitute`); the result is rescanned together with the
  tokens that follow, and a token is never replaced as a macro whose
  replacement produced it (its hide set).

The file `boost/shared_ptr.hpp` named by the `#include` is not part of the
sources; its effect on the macro table and the tokens it contributes are a
parameter of the interpreter.
-/

namespace LsstBase

/-! ## Tokens and macro definitions -/

/-- A preprocessing token, identified by its spelling. -/
abbrev Token := String

/-- A macro definition: `#define NAME body` (object-like) or
`#define NAME(params) body` / `#define NAME(params, ...) body` (function-like). -/
inductive MacroDef where
  | object (body : List Token)
  | function (params : List String) (variadic : Bool) (body : List Token)
  deriving DecidableEq

/-- The replacement of `#define LSST_BASE_BASE_H 1` (base.h, line 2). -/
def LSST_BASE_BASE_H : MacroDef :=
  .object ["1"]

/-- The definition `#define PTR(...) boost::shared_ptr<__VA_ARGS__>`
(base.h, line 18). -/
def PTR : MacroDef :=
  .function [] true ["boost", "::", "shared_ptr", "<", "__VA_ARGS__", ">"]

/-- The definition `#define CONST_PTR(...) boost::shared_ptr<const __VA_ARGS__>`
(base.h, line 24). -/
def CONST_PTR : MacroDef :=
  .function [] true ["boost", "::", "shared_ptr", "<", "const", "__VA_ARGS__", ">"]

/-! ## The macro table -/

/-- The macro table of the preprocessor: the most recent definition of a name
comes first. -/
abbrev MacroTable := List (String × MacroDef)

/-- The current definition of `name`, if it is defined. -/
def lookup (name : String) : MacroTable → Option MacroDef
  | [] => none
  | (n, d) :: rest => if n = name then some d else lookup name rest

/-- The operator `defined(name)`. -/
def isDefined (name : String) (m : MacroTable) : Bool :=
  (lookup name m).isSome

/-- Removal of every definition of `name` from the table. -/
def undefine (name : String) : MacroTable → MacroTable
  | [] => []
  | (n, d) :: rest => if n = name then undefine name rest else (n, d) :: undefine name rest

/-- The directive `#define name ...`: the definition of `name` becomes `d`; no
other name is touched. -/
def define (name : String) (d : MacroDef) (m : MacroTable) : MacroTable :=
  (name, d) :: undefine name m

/-! ## The header as a list of directives -/

/-- The directive forms that occur in base.h.  Comments are replaced by white
space before directives are executed and contribute nothing. -/
inductive Directive where
  | ifNotDefined (name : String)
  | define (name : String) (d : MacroDef)
  | includeFile (path : String)
  | endif
  deriving DecidableEq

/-- The header `include/lsst/base.h`, directive by directive:
line 1 `#if !defined(LSST_BASE_BASE_H)`, line 2 `#define LSST_BASE_BASE_H 1`,
line 8 `#include "boost/shared_ptr.hpp"`, line 18 `#define PTR(...)`,
line 24 `#define CONST_PTR(...)`, line 26 `#endif`.  Every other line is a
comment or blank. -/
def baseH : List Directive :=
  [ .ifNotDefined "LSST_BASE_BASE_H",
    .define "LSST_BASE_BASE_H" LSST_BASE_BASE_H,
    .includeFile "boost/shared_ptr.hpp",
    .define "PTR" PTR,
    .define "CONST_PTR" CONST_PTR,
    .endif ]

/-- The state of the preprocessor while it reads a file: the macro table, the
tokens emitted into the translation unit so far, and for every conditional
group that is open whether its body is being processed. -/
structure PPState where
  macros : MacroTable
  out : List Token
  conds : List Bool
  deriving DecidableEq

/-- Directives are executed only when every open conditional group is being
processed. -/
def PPState.active (s : PPState) : Bool :=
  s.conds.all id

/-- The effect of an included file: given its path and the macro table at the
point of inclusion, the macro table after it and the tokens it contributes.
The included file `boost/shared_ptr.hpp` is not part of the sources. -/
abbrev Includer := String → MacroTable → MacroTable × List Token

/-- Execution of one directive. -/
def step (inc : Includer) (s : PPState) : Directive → PPState
  | .ifNotDefined name =>
      { s with conds := (s.active && !isDefined name s.macros) :: s.conds }
  | .define name d =>
      if s.active then { s with macros := define name d s.macros } else s
  | .includeFile path =>
      if s.active then
        { s with macros := (inc path s.macros).1, out := s.out ++ (inc path s.macros).2 }
      else s
  | .endif => { s with conds := s.conds.tail }

/-- Execution of a list of directives, in order. -/
def run (inc : Includer) (ds : List Directive) (s : PPState) : PPState :=
  ds.foldl (step inc) s

/-- A translation unit under construction, as seen between two files: the
macro table and the tokens emitted so far. -/
structure TransUnit where
  macros : MacroTable
  out : List Token
  deriving DecidableEq

/-- Processing of `#include "lsst/base.h"` at a point where the translation
unit is `u`.  The conditional groups of a file open and close inside it, so the
header is run with no group open. -/
def processHeader (inc : Includer) (u : TransUnit) : TransUnit :=
  let s := run inc baseH { macros := u.macros, out := u.out, conds := [] }
  { macros := s.macros, out := s.out }

/-- A translation unit in which nothing has been defined or emitted yet. -/
def emptyUnit : TransUnit :=
  { macros := [], out := [] }

/-! ## Macro replacement -/

/-- A preprocessing token during macro replacement: its spelling and its hide
set, the names of the macros whose replacement produced it.  A token is never
replaced as a macro named in its hide set. -/
structure Tok where
  text : Token
  hide : List String
  deriving DecidableEq

/-- The tokens of the source text: nothing produced them. -/
def plain (ts : List Token) : List Tok :=
  ts.map (fun s => { text := s, hide := [] })

/-- The spellings of a token sequence. -/
def spell (ts : List Tok) : List Token :=
  ts.map Tok.text

/-- Addition of the names `hs` to the hide set of every token. -/
def hsadd (hs : List String) (ts : List Tok) : List Tok :=
  ts.map (fun t => { text := t.text, hide := hs ++ t.hide })

/-- Collection of the arguments of an invocation of a function-like macro with
`nparams` named parameters.  `ts` are the tokens after the opening
parenthesis, `depth` the number of nested parentheses open inside the
argument, `cur` the argument being read, `acc` the arguments completed so far.
A comma outside nested parentheses ends an argument, except that once the
named parameters of a variadic macro have their arguments every further
comma belongs to the variable arguments.  The result is the arguments, the
closing parenthesis and the tokens after it, or `none` when the invocation is
unterminated. -/
def collectArgs (nparams : Nat) (variadic : Bool) :
    List Tok → Nat → List Tok → List (List Tok) → Option (List (List Tok) × Tok × List Tok)
  | [], _, _, _ => none
  | t :: ts, depth, cur, acc =>
      if t.text = "(" then collectArgs nparams variadic ts (depth + 1) (cur ++ [t]) acc
      else if t.text = ")" then
        if depth = 0 then some (acc ++ [cur], t, ts)
        else collectArgs nparams variadic ts (depth - 1) (cur ++ [t]) acc
      else if t.text = "," ∧ depth = 0 ∧ ¬ (variadic = true ∧ acc.length = nparams) then
        collectArgs nparams variadic ts 0 [] (acc ++ [cur])
      else collectArgs nparams variadic ts depth (cur ++ [t]) acc

/-- The arguments of an invocation as they are bound to the parameters, or
`none` when their number does not fit the parameter list.  An invocation `F()`
of a macro without parameters has no argument; the variable arguments of a
variadic macro may be absent. -/
def bindArgs (params : List String) (variadic : Bool) (args : List (List Tok)) :
    Option (List (List Tok)) :=
  let args := if params = [] ∧ variadic = false ∧ args = [[]] then [] else args
  if variadic then
    if args.length = params.length ∨ args.length = params.length + 1 then some args else none
  else if args.length = params.length then some args
  else none

/-- The argument bound to the named parameter `t`, if `t` is one. -/
def paramArg (t : Token) : List String → List (List Tok) → Option (List Tok)
  | p :: ps, a :: as => if p = t then some a else paramArg t ps as
  | _, _ => none

/-- Substitution of the arguments into a replacement list: a named parameter
is replaced by its argument, `__VA_ARGS__` (in a variadic macro) by the
variable arguments, in either case after the argument has been completely
macro-replaced (by `expandArg`); every other token stands for itself.  The
operators `#` and `##` occur in no replacement list of base.h and have no case
here. -/
def substitute (expandArg : List Tok → Option (List Tok)) (params : List String)
    (variadic : Bool) (args : List (List Tok)) : List Token → Option (List Tok)
  | [] => some []
  | b :: bs =>
      match (if variadic = true ∧ b = "__VA_ARGS__" then
               expandArg ((args.drop params.length).headD [])
             else match paramArg b params args with
               | some a => expandArg a
               | none => some [{ text := b, hide := [] }]) with
      | none => none
      | some first =>
          match substitute expandArg params variadic args bs with
          | none => none
          | some others => some (first ++ others)

/-- One pass over a token sequence, replacing the macro invocations in it.
A token that is not a macro name, or that names a macro of its hide set, is
kept.  An object-like macro name is replaced by its replacement list; a
function-like macro name followed by an opening parenthesis is replaced by its
replacement list with the arguments substituted.  The replacement, its tokens
hidden from the macro, is then rescanned together with the rest of the tokens
by `rescan`, which also macro-replaces the arguments.  The result is `none`
when an invocation is unterminated or has the wrong number of arguments, or
when `rescan` gives none. -/
def expandWith (rescan : List Tok → Option (List Tok)) (m : MacroTable) :
    List Tok → Option (List Tok)
  | [] => some []
  | t :: rest =>
      if t.text ∈ t.hide then (expandWith rescan m rest).map (fun r => t :: r)
      else
        match lookup t.text m with
        | none => (expandWith rescan m rest).map (fun r => t :: r)
        | some (.object body) => rescan (hsadd (t.text :: t.hide) (plain body) ++ rest)
        | some (.function params variadic body) =>
            match rest with
            | [] => some [t]
            | p :: rest2 =>
                if p.text = "(" then
                  match collectArgs params.length variadic rest2 0 [] [] with
                  | none => none
                  | some (args, close, after) =>
                      match bindArgs params variadic args with
                      | none => none
                      | some bound =>
                          match substitute rescan params variadic bound body with
                          | none => none
                          | some r =>
                              rescan (hsadd (t.text :: t.hide.filter (fun h => h ∈ close.hide)) r
                                ++ after)
                else (expandWith rescan m rest).map (fun r => t :: r)

/-- Complete macro replacement of a token sequence.  Every replacement uses
one unit of `fuel` along the chain of rescans it belongs to; the result is
`none` when an invocation is ill-formed or the fuel does not suffice. -/
def expand (m : MacroTable) : Nat → List Tok → Option (List Tok)
  | 0 => expandWith (fun _ => none) m
  | fuel + 1 => expandWith (expand m fuel) m

/-- Macro replacement of a piece of source text under the macro table `m`:
the spellings of the tokens that result. -/
def preprocess (fuel : Nat) (m : MacroTable) (ts : List Token) : Option (List Token) :=
  (expand m fuel (plain ts)).map spell

/-- The variable arguments as they are written in an invocation: the arguments
in order, separated by commas. -/
def joinArgs : List (List Token) → List Token
  | [] => []
  | [a] => a
  | a :: b :: rest => a ++ "," :: joinArgs (b :: rest)

/-- No token of `ts` is the name of a macro in `m`. -/
def NoMacro (m : MacroTable) (ts : List Token) : Prop :=
  ∀ t ∈ ts, lookup t m = none

instance (m : MacroTable) (ts : List Token) : Decidable (NoMacro m ts) := by
  unfold NoMacro; exact inferInstance

/-- Scan of a token sequence for parenthesis nesting, starting with `depth`
parentheses open: the depth at the end, or `none` when a closing parenthesis
has no partner inside the sequence. -/
def parenScan : List Token → Nat → Option Nat
  | [], depth => some depth
  | t :: ts, depth =>
      if t = "(" then parenScan ts (depth + 1)
      else if t = ")" then
        if depth = 0 then none else parenScan ts (depth - 1)
      else parenScan ts depth

/-- A token sequence whose parentheses are balanced: such a sequence can stand
between the parentheses of a macro invocation. -/
def Balanced (ts : List Token) : Prop :=
  parenScan ts 0 = some 0

instance (ts : List Token) : Decidable (Balanced ts) := by
  unfold Balanced; exact inferInstance

/-- The tokens of an invocation up to its closing parenthesis, and the tokens
after it: the scan that `collectArgs` performs, without the splitting into
arguments. -/
def matchParen : List Token → Nat → Option (List Token × List Token)
  | [], _ => none
  | t :: ts, depth =>
      if t = "(" then (matchParen ts (depth + 1)).map (fun r => (t :: r.1, r.2))
      else if t = ")" then
        if depth = 0 then some ([], ts)
        else (matchParen ts (depth - 1)).map (fun r => (t :: r.1, r.2))
      else (matchParen ts depth).map (fun r => (t :: r.1, r.2))

/-- Scan of one macro argument, starting with `depth` parentheses open: the
depth at the end, or `none` when the sequence holds a comma outside
parentheses or a closing parenthesis without partner, either of which would
end the argument. -/
def argScan : List Token → Nat → Option Nat
  | [], depth => some depth
  | t :: ts, depth =>
      if t = "(" then argScan ts (depth + 1)
      else if t = ")" then
        if depth = 0 then none else argScan ts (depth - 1)
      else if t = "," ∧ depth = 0 then none
      else argScan ts depth

/-- A token sequence that is one macro argument: balanced parentheses and no
comma outside them. -/
def IsArg (a : List Token) : Prop :=
  argScan a 0 = some 0

instance (a : List Token) : Decidable (IsArg a) := by
  unfold IsArg; exact inferInstance

/-- The include of a file that defines its own guard and contributes the
tokens of one declaration; a concrete stand-in for the absent
`boost/shared_ptr.hpp`. -/
def sampleIncluder : Includer :=
  fun _ m =>
    (define "BOOST_SHARED_PTR_HPP_INCLUDED" (.object []) m, ["class", "shared_count", ";"])

/-- The include of a file that defines no macro and contributes no token. -/
def noInclude : Includer :=
  fun _ m => (m, [])

/-! ## Shared ownership -/

/-- Modelled from the spec: the object shared by the handles of type
`boost::shared_ptr`, the template of `boost/shared_ptr.hpp`, which base.h
includes and which is absent from the sources.  The spec describes it as
"shared ownership of a heap-allocated T instance, with reference-counted
lifetime management": `owners` are the handles that currently share the
object, `useCount` is the share count, `destroyed` counts the destructions of
the object, `nextHandle` names the next handle to be created. -/
structure SharedObject where
  owners : List Nat
  useCount : Nat
  destroyed : Nat
  nextHandle : Nat
  deriving DecidableEq

/-- Modelled from the spec: what a program does with the handles of one
object: "copying a handle", and "destroying or resetting a handle". -/
inductive HandleOp where
  | copy (h : Nat)
  | destroy (h : Nat)
  | reset (h : Nat)
  deriving DecidableEq

/-- Modelled from the spec: "constructing a mutable shared handle to a
heap-allocated T": one handle, share count one, object alive. -/
def construct : SharedObject :=
  { owners := [0], useCount := 1, destroyed := 0, nextHandle := 1 }

/-- Modelled from the spec: "destroying or resetting a handle decreases" the
share count, and "the underlying object is destroyed when the last owning
handle referencing it is destroyed or reset".  The release of a handle that
does not share the object leaves the object alone. -/
def release (h : Nat) (o : SharedObject) : SharedObject :=
  if h ∈ o.owners then
    { owners := o.owners.erase h,
      useCount := o.useCount - 1,
      destroyed := if o.useCount - 1 = 0 then o.destroyed + 1 else o.destroyed,
      nextHandle := o.nextHandle }
  else o

/-- Modelled from the spec: "copying a handle increases the share count"; the
copy is a new handle sharing the same object.  The copy of a handle that does
not share the object does not share it either. -/
def copyHandle (h : Nat) (o : SharedObject) : SharedObject :=
  if h ∈ o.owners then
    { owners := o.nextHandle :: o.owners,
      useCount := o.useCount + 1,
      destroyed := o.destroyed,
      nextHandle := o.nextHandle + 1 }
  else { o with nextHandle := o.nextHandle + 1 }

/-- Modelled from the spec: one operation on a handle. -/
def applyOp (o : SharedObject) : HandleOp → SharedObject
  | .copy h => copyHandle h o
  | .destroy h => release h o
  | .reset h => release h o

/-- Modelled from the spec: a sequence of operations on handles, in order. -/
def runOps (ops : List HandleOp) (o : SharedObject) : SharedObject :=
  ops.foldl applyOp o

/-- The invariant of a shared object: the handles sharing it are distinct and
older than the next handle, the share count is their number, and the object
has been destroyed once if no handle is left and not at all otherwise. -/
def SharedInv (o : SharedObject) : Prop :=
  o.owners.Nodup ∧ (∀ h ∈ o.owners, h < o.nextHandle) ∧ o.useCount = o.owners.length ∧
    o.destroyed = (if o.owners = [] then 1 else 0)

/-! ## Lemmas on the macro table -/

theorem lookup_undefine_ne (name other : String) (h : name ≠ other) (m : MacroTable) :
    lookup name (undefine other m) = lookup name m := by
  induction m with
  | nil => rfl
  | cons e rest ih =>
    obtain ⟨n, d⟩ := e
    by_cases hn : n = other
    · subst hn
      have hne : ¬ n = name := fun h2 => h h2.symm
      simp [undefine, lookup, hne, ih]
    · by_cases hname : n = name
      · subst hname
        simp [undefine, lookup, h]
      · simp [undefine, lookup, hn, hname, ih]

theorem lookup_define_same (name : String) (d : MacroDef) (m : MacroTable) :
    lookup name (define name d m) = some d := by
  simp [define, lookup]

theorem lookup_define_ne (name other : String) (d : MacroDef) (m : MacroTable)
    (h : name ≠ other) : lookup name (define other d m) = lookup name m := by
  have hne : ¬ other = name := fun h2 => h h2.symm
  simp only [define, lookup, hne, if_false]
  exact lookup_undefine_ne name other h m

/-! ## Lemmas on the header -/

theorem processHeader_defined (inc : Includer) (u : TransUnit)
    (h : isDefined "LSST_BASE_BASE_H" u.macros = true) : processHeader inc u = u := by
  cases u
  simp_all [processHeader, run, baseH, step, PPState.active]

theorem processHeader_fresh (inc : Includer) (u : TransUnit)
    (h : isDefined "LSST_BASE_BASE_H" u.macros = false) :
    processHeader inc u =
      { macros := define "CONST_PTR" CONST_PTR (define "PTR" PTR
          (inc "boost/shared_ptr.hpp" (define "LSST_BASE_BASE_H" LSST_BASE_BASE_H u.macros)).1),
        out := u.out ++
          (inc "boost/shared_ptr.hpp" (define "LSST_BASE_BASE_H" LSST_BASE_BASE_H u.macros)).2 } := by
  cases u
  simp_all [processHeader, run, baseH, step, PPState.active]

/-- A sequence with balanced parentheses, followed by a closing parenthesis,
is matched up to exactly that parenthesis. -/
theorem matchParen_of_parenScan (body : List Token) :
    ∀ (depth depth2 : Nat) (after : List Token), parenScan body depth = some depth2 →
      matchParen (body ++ after) depth = (matchParen after depth2).map (fun r => (body ++ r.1, r.2)) := by
  induction body with
  | nil =>
    intro depth depth2 after h
    simp only [parenScan, Option.some.injEq] at h
    subst h
    simp only [List.nil_append]
    cases matchParen after depth <;> simp
  | cons t rest ih =>
    intro depth depth2 after h
    simp only [List.cons_append]
    rw [matchParen]
    rw [parenScan] at h
    by_cases h1 : t = "("
    · simp only [h1, if_true] at h ⊢
      rw [ih _ _ _ h]
      cases matchParen after depth2 <;> simp
    · simp only [h1, if_false] at h ⊢
      by_cases h2 : t = ")"
      · simp only [h2, if_true] at h ⊢
        by_cases h3 : depth = 0
        · simp [h3] at h
        · simp only [h3, if_false] at h ⊢
          rw [ih _ _ _ h]
          cases matchParen after depth2 <;> simp
      · simp only [h2, if_false] at h ⊢
        rw [ih _ _ _ h]
        cases matchParen after depth2 <;> simp

theorem matchParen_balanced (body after : List Token) (h : Balanced body) :
    matchParen (body ++ ")" :: after) 0 = some (body, after) := by
  rw [matchParen_of_parenScan body 0 0 _ h]
  simp [matchParen]

/-! ## Lemmas on shared ownership -/

theorem release_invariant (h0 : Nat) (o : SharedObject) (hinv : SharedInv o) :
    SharedInv (release h0 o) := by
  obtain ⟨hnd, hlt, hcount, hdes⟩ := hinv
  unfold release
  by_cases hmem : h0 ∈ o.owners
  · simp only [hmem, if_true]
    have hlen : (o.owners.erase h0).length = o.owners.length - 1 :=
      List.length_erase_of_mem hmem
    have hne : o.owners ≠ [] := List.ne_nil_of_mem hmem
    have hpos : 0 < o.owners.length := List.length_pos.mpr hne
    simp only [hne, if_false] at hdes
    refine ⟨hnd.erase h0, fun h hh => hlt h (List.mem_of_mem_erase hh), ?_, ?_⟩
    · simp only [hlen, hcount]
    · simp only [hcount, hdes]
      by_cases hz : o.owners.length - 1 = 0
      · have : o.owners.erase h0 = [] := List.length_eq_zero.mp (by omega)
        simp [hz, this]
      · have : o.owners.erase h0 ≠ [] := by
          intro he
          rw [he] at hlen
          simp at hlen
          omega
        simp [hz, this]
  · simp only [hmem, if_false]
    exact ⟨hnd, hlt, hcount, hdes⟩

theorem copyHandle_invariant (h0 : Nat) (o : SharedObject) (hinv : SharedInv o) :
    SharedInv (copyHandle h0 o) := by
  obtain ⟨hnd, hlt, hcount, hdes⟩ := hinv
  unfold copyHandle
  by_cases hmem : h0 ∈ o.owners
  · simp only [hmem, if_true]
    have hne : o.owners ≠ [] := List.ne_nil_of_mem hmem
    simp only [hne, if_false] at hdes
    refine ⟨?_, ?_, ?_, ?_⟩
    · refine List.nodup_cons.mpr ⟨fun hin => ?_, hnd⟩
      exact Nat.lt_irrefl _ (hlt _ hin)
    · intro h hh
      rcases List.mem_cons.mp hh with rfl | hh
      · exact Nat.lt_succ_self _
      · exact Nat.lt_succ_of_lt (hlt h hh)
    · simp [hcount]
    · simp [hdes]
  · simp only [hmem, if_false]
    exact ⟨hnd, fun h hh => Nat.lt_succ_of_lt (hlt h hh), hcount, hdes⟩

theorem runOps_invariant (ops : List HandleOp) :
    ∀ (o : SharedObject), SharedInv o → SharedInv (runOps ops o) := by
  induction ops with
  | nil => intro o h; exact h
  | cons op rest ih =>
    intro o h
    simp only [runOps, List.foldl_cons]
    apply ih
    cases op with
    | copy h0 => exact copyHandle_invariant h0 o h
    | destroy h0 => exact release_invariant h0 o h
    | reset h0 => exact release_invariant h0 o h

theorem construct_invariant : SharedInv construct := by
  refine ⟨?_, ?_, rfl, rfl⟩
  · simp [construct]
  · simp [construct]

/-! ## The macro table after the header -/

theorem lookup_PTR_processHeader (inc : Includer) (u : TransUnit)
    (hfresh : isDefined "LSST_BASE_BASE_H" u.macros = false) :
    lookup "PTR" (processHeader inc u).macros = some PTR := by
  rw [processHeader_fresh inc u hfresh]
  simp only []
  rw [lookup_define_ne "PTR" "CONST_PTR" _ _ (by decide)]
  exact lookup_define_same _ _ _

theorem lookup_CONST_PTR_processHeader (inc : Includer) (u : TransUnit)
    (hfresh : isDefined "LSST_BASE_BASE_H" u.macros = false) :
    lookup "CONST_PTR" (processHeader inc u).macros = some CONST_PTR := by
  rw [processHeader_fresh inc u hfresh]
  exact lookup_define_same _ _ _

/-! ## Lemmas on macro replacement -/

theorem spell_plain (ts : List Token) : spell (plain ts) = ts := by
  induction ts with
  | nil => rfl
  | cons t rest ih =>
    simp only [spell, plain, List.map_cons, List.map_map] at ih ⊢
    rw [ih]

theorem spell_hsadd (hs : List String) (ts : List Tok) : spell (hsadd hs ts) = spell ts := by
  induction ts with
  | nil => rfl
  | cons t rest ih =>
    simp only [spell, hsadd, List.map_cons, List.map_map] at ih ⊢
    rw [ih]

theorem spell_append (a b : List Tok) : spell (a ++ b) = spell a ++ spell b := by
  simp [spell]

theorem plain_append (a b : List Token) : plain (a ++ b) = plain a ++ plain b := by
  simp [plain]

/-- A token sequence that holds no macro name is its own replacement. -/
theorem expandWith_inert (rescan : List Tok → Option (List Tok)) (m : MacroTable)
    (ts : List Tok) (h : NoMacro m (spell ts)) : expandWith rescan m ts = some ts := by
  induction ts with
  | nil => rfl
  | cons t rest ih =>
    have ht : lookup t.text m = none := h t.text (by simp [spell])
    have hrest : NoMacro m (spell rest) := fun x hx => h x (by
      simp only [spell, List.map_cons, List.mem_cons] at hx ⊢
      exact Or.inr hx)
    rw [expandWith, ih hrest, ht]
    split <;> rfl

theorem expand_inert (m : MacroTable) (fuel : Nat) (ts : List Tok)
    (h : NoMacro m (spell ts)) : expand m fuel ts = some ts := by
  cases fuel with
  | zero => exact expandWith_inert _ m ts h
  | succ n => exact expandWith_inert _ m ts h

/-- The arguments of an invocation of a variadic macro without named
parameter are one argument: the tokens up to the closing parenthesis, commas
included. -/
theorem collectArgs_variadic (rest : List Token) :
    ∀ (depth : Nat) (cur : List Tok),
      collectArgs 0 true (plain rest) depth cur [] =
        (matchParen rest depth).map
          (fun r => ([cur ++ plain r.1], { text := ")", hide := [] }, plain r.2)) := by
  induction rest with
  | nil => intro depth cur; rfl
  | cons t ts ih =>
    intro depth cur
    have hp : plain (t :: ts) = { text := t, hide := [] } :: plain ts := rfl
    rw [hp, collectArgs, matchParen]
    by_cases h1 : t = "("
    · simp only [h1, if_true]
      rw [ih]
      cases matchParen ts (depth + 1) <;> simp [plain]
    · simp only [h1, if_false]
      by_cases h2 : t = ")"
      · simp only [h2, if_true]
        by_cases h3 : depth = 0
        · simp [h3, plain]
        · simp only [h3, if_false]
          rw [ih]
          cases matchParen ts (depth - 1) <;> simp [plain]
      · simp only [h2, if_false]
        simp only [List.length_nil, and_self, not_true_eq_false, and_false, if_false]
        rw [ih]
        cases matchParen ts depth <;> simp [plain]

theorem matchParen_split (ts : List Token) :
    ∀ (depth : Nat) (r : List Token × List Token), matchParen ts depth = some r →
      ts = r.1 ++ ")" :: r.2 := by
  induction ts with
  | nil => intro depth r h; simp [matchParen] at h
  | cons t rest ih =>
    intro depth r h
    rw [matchParen] at h
    by_cases h1 : t = "("
    · simp only [h1, if_true] at h
      cases hm : matchParen rest (depth + 1) with
      | none => rw [hm] at h; simp at h
      | some r2 =>
        rw [hm] at h
        simp only [Option.map_some', Option.some.injEq] at h
        subst h
        simp [h1, ih _ _ hm]
    · simp only [h1, if_false] at h
      by_cases h2 : t = ")"
      · simp only [h2, if_true] at h
        by_cases h3 : depth = 0
        · simp only [h3, if_true, Option.some.injEq] at h
          subst h
          simp [h2]
        · simp only [h3, if_false] at h
          cases hm : matchParen rest (depth - 1) with
          | none => rw [hm] at h; simp at h
          | some r2 =>
            rw [hm] at h
            simp only [Option.map_some', Option.some.injEq] at h
            subst h
            simp [h2, ih _ _ hm]
      · simp only [h2, if_false] at h
        cases hm : matchParen rest depth with
        | none => rw [hm] at h; simp at h
        | some r2 =>
          rw [hm] at h
          simp only [Option.map_some', Option.some.injEq] at h
          subst h
          simp [ih _ _ hm]

/-- The replacement list of a variadic macro without named parameter, with the
variable arguments `a` substituted. -/
theorem substitute_variadic (f : List Tok → Option (List Tok)) (a : List Tok)
    (before after : List Token) (hb : "__VA_ARGS__" ∉ before) (ha : "__VA_ARGS__" ∉ after) :
    substitute f [] true [a] (before ++ "__VA_ARGS__" :: after) =
      (f a).map (fun e => plain before ++ e ++ plain after) := by
  have hlit : ∀ bs : List Token, "__VA_ARGS__" ∉ bs →
      substitute f [] true [a] bs = some (plain bs) := by
    intro bs
    induction bs with
    | nil => intro _; rfl
    | cons b rest ih =>
      intro hbs
      have hne : ¬ b = "__VA_ARGS__" := fun h => hbs (by simp [h])
      have hrest : "__VA_ARGS__" ∉ rest := fun h => hbs (List.mem_cons_of_mem _ h)
      rw [substitute, ih hrest]
      simp [hne, paramArg, plain]
  induction before with
  | nil =>
    simp only [List.nil_append]
    rw [substitute, hlit after ha]
    cases hfa : f a <;> simp [hfa, plain]
  | cons b rest ih =>
    have hne : ¬ b = "__VA_ARGS__" := fun h => hb (by simp [h])
    have hrest : "__VA_ARGS__" ∉ rest := fun h => hb (List.mem_cons_of_mem _ h)
    simp only [List.cons_append]
    rw [substitute, ih hrest]
    cases hfa : f a <;> simp [hne, paramArg, plain]

/-- One pass over an invocation, in source text, of a variadic macro without
named parameter whose replacement list holds `__VA_ARGS__` once: the variable
arguments are macro-replaced, put in the place of `__VA_ARGS__`, and the
result is rescanned with the tokens after the invocation. -/
theorem expandWith_variadic (f : List Tok → Option (List Tok)) (m : MacroTable)
    (name : String) (before after rest : List Token)
    (hm : lookup name m = some (.function [] true (before ++ "__VA_ARGS__" :: after)))
    (hb : "__VA_ARGS__" ∉ before) (ha : "__VA_ARGS__" ∉ after) :
    expandWith f m (plain (name :: "(" :: rest)) =
      match matchParen rest 0 with
      | none => none
      | some r =>
          match f (plain r.1) with
          | none => none
          | some e => f (hsadd [name] (plain before ++ e ++ plain after) ++ plain r.2) := by
  have hp : plain (name :: "(" :: rest) =
      { text := name, hide := [] } :: { text := "(", hide := [] } :: plain rest := rfl
  rw [hp, expandWith]
  simp only [List.not_mem_nil, if_false, hm, if_true, List.length_nil]
  rw [collectArgs_variadic rest 0 []]
  cases hmp : matchParen rest 0 with
  | none => simp
  | some r =>
    simp only [Option.map_some', List.nil_append]
    have hbind : bindArgs [] true [plain r.1] = some [plain r.1] := by
      simp [bindArgs]
    simp only [hbind]
    rw [substitute_variadic f (plain r.1) before after hb ha]
    cases f (plain r.1) <;> simp


/-- Complete replacement of an invocation, in source text, of a variadic macro
without named parameter: if the variable arguments `T` are replaced by `E`,
and no token of the replacement list, of `E` or after the invocation is a
macro name, the result is the replacement list with `E` for `__VA_ARGS__`,
followed by the tokens after the invocation. -/
theorem preprocess_variadic (m : MacroTable) (name : String) (pre suf rest T tail : List Token)
    (E : List Tok) (fuel : Nat)
    (hm : lookup name m = some (.function [] true (pre ++ "__VA_ARGS__" :: suf)))
    (hb : "__VA_ARGS__" ∉ pre) (ha : "__VA_ARGS__" ∉ suf)
    (hmp : matchParen rest 0 = some (T, tail))
    (hE : expand m fuel (plain T) = some E)
    (hno : NoMacro m (pre ++ spell E ++ suf ++ tail)) :
    preprocess (fuel + 1) m (name :: "(" :: rest) = some (pre ++ spell E ++ suf ++ tail) := by
  have hsp : spell (hsadd [name] (plain pre ++ E ++ plain suf) ++ plain tail) =
      pre ++ spell E ++ suf ++ tail := by
    simp [spell_append, spell_hsadd, spell_plain]
  have hin : expand m fuel (hsadd [name] (plain pre ++ E ++ plain suf) ++ plain tail) =
      some (hsadd [name] (plain pre ++ E ++ plain suf) ++ plain tail) :=
    expand_inert m fuel _ (by rw [hsp]; exact hno)
  simp only [preprocess, expand]
  rw [expandWith_variadic (expand m fuel) m name pre suf rest hm hb ha, hmp]
  simp only [hE, hin, Option.map_some', hsp]

/-- Complete replacement of an invocation of such a macro when neither its
replacement list nor the tokens that follow its name hold a macro name: the
invocation is replaced if its parentheses close, and is ill-formed if not. -/
theorem preprocess_variadic_inert (m : MacroTable) (name : String) (pre suf rest : List Token)
    (fuel : Nat)
    (hm : lookup name m = some (.function [] true (pre ++ "__VA_ARGS__" :: suf)))
    (hb : "__VA_ARGS__" ∉ pre) (ha : "__VA_ARGS__" ∉ suf)
    (hno : NoMacro m (pre ++ suf ++ rest)) :
    preprocess (fuel + 1) m (name :: "(" :: rest) =
      (matchParen rest 0).map (fun r => pre ++ r.1 ++ suf ++ r.2) := by
  cases hmp : matchParen rest 0 with
  | none =>
    simp only [preprocess, expand]
    rw [expandWith_variadic (expand m fuel) m name pre suf rest hm hb ha, hmp]
    rfl
  | some r =>
    obtain ⟨T, tail⟩ := r
    have hsplit : rest = T ++ ")" :: tail := matchParen_split rest 0 (T, tail) hmp
    have hT : NoMacro m (spell (plain T)) := by
      intro x hx
      rw [spell_plain] at hx
      exact hno x (by rw [hsplit]; simp [hx])
    have hall : NoMacro m (pre ++ spell (plain T) ++ suf ++ tail) := by
      intro x hx
      rw [spell_plain] at hx
      apply hno x
      rw [hsplit]
      simp only [List.mem_append, List.mem_cons] at hx ⊢
      tauto
    have h := preprocess_variadic m name pre suf rest T tail (plain T) fuel hm hb ha hmp
      (expand_inert m fuel _ hT) hall
    rw [spell_plain] at h
    simp [h]

theorem parenScan_append (a b : List Token) :
    ∀ (depth : Nat), parenScan (a ++ b) depth = (parenScan a depth).bind (parenScan b) := by
  induction a with
  | nil => intro depth; simp [parenScan]
  | cons t rest ih =>
    intro depth
    rw [List.cons_append, parenScan, parenScan]
    by_cases h1 : t = "("
    · simp only [h1, if_true]
      exact ih _
    · simp only [h1, if_false]
      by_cases h2 : t = ")"
      · simp only [h2, if_true]
        by_cases h3 : depth = 0
        · simp [h3]
        · simp only [h3, if_false]
          exact ih _
      · simp only [h2, if_false]
        exact ih _

theorem parenScan_of_argScan (a : List Token) :
    ∀ (depth depth2 : Nat), argScan a depth = some depth2 → parenScan a depth = some depth2 := by
  induction a with
  | nil => intro depth depth2 h; simpa [argScan, parenScan] using h
  | cons t rest ih =>
    intro depth depth2 h
    rw [argScan] at h
    rw [parenScan]
    by_cases h1 : t = "("
    · simp only [h1, if_true] at h ⊢
      exact ih _ _ h
    · simp only [h1, if_false] at h ⊢
      by_cases h2 : t = ")"
      · simp only [h2, if_true] at h ⊢
        by_cases h3 : depth = 0
        · simp [h3] at h
        · simp only [h3, if_false] at h ⊢
          exact ih _ _ h
      · simp only [h2, if_false] at h ⊢
        by_cases h3 : t = "," ∧ depth = 0
        · simp [h3] at h
        · simp only [h3, if_false] at h
          exact ih _ _ h

/-- Arguments written one after the other with commas between them form a
token sequence with balanced parentheses. -/
theorem balanced_joinArgs (args : List (List Token)) (h : ∀ a ∈ args, IsArg a) :
    Balanced (joinArgs args) := by
  induction args with
  | nil => rfl
  | cons a rest ih =>
    have ha : parenScan a 0 = some 0 :=
      parenScan_of_argScan a 0 0 (h a (List.mem_cons_self a rest))
    cases rest with
    | nil => exact ha
    | cons b rest2 =>
      have hrest : Balanced (joinArgs (b :: rest2)) :=
        ih (fun x hx => h x (List.mem_cons_of_mem a hx))
      have hc : ¬ ("," : String) = "(" := by decide
      have hc2 : ¬ ("," : String) = ")" := by decide
      simp only [Balanced, joinArgs]
      rw [parenScan_append, ha]
      simp only [Option.some_bind, parenScan, hc, hc2, if_false]
      exact hrest

theorem noMacro_subset (m : MacroTable) (big small : List Token) (h : NoMacro m big)
    (hs : small ⊆ big) : NoMacro m small :=
  fun x hx => h x (hs hx)

theorem PTR_shape :
    PTR = .function [] true (["boost", "::", "shared_ptr", "<"] ++ "__VA_ARGS__" :: [">"]) :=
  rfl

theorem CONST_PTR_shape :
    CONST_PTR =
      .function [] true (["boost", "::", "shared_ptr", "<", "const"] ++ "__VA_ARGS__" :: [">"]) :=
  rfl



/-- Macro replacement at work on invocations of the two macros after the
header: an argument that is itself an invocation is replaced before it is
substituted; so is an argument that is a macro name; an object-like macro that
stands for `PTR` picks up the parentheses after it on the rescan; a macro
defined as itself is not replaced again. -/
theorem preprocess_examples :
    preprocess 2 (processHeader sampleIncluder emptyUnit).macros
        ["PTR", "(", "PTR", "(", "int", ")", ")", "p", ";"] =
      some ["boost", "::", "shared_ptr", "<", "boost", "::", "shared_ptr", "<", "int", ">", ">",
        "p", ";"] ∧
    preprocess 2 (define "Widget" (.object ["Gadget"])
          (processHeader sampleIncluder emptyUnit).macros)
        ["CONST_PTR", "(", "Widget", ")", "w", ";"] =
      some ["boost", "::", "shared_ptr", "<", "const", "Gadget", ">", "w", ";"] ∧
    preprocess 2 (define "SP" (.object ["PTR"]) (processHeader sampleIncluder emptyUnit).macros)
        ["SP", "(", "int", ")", "p", ";"] =
      some ["boost", "::", "shared_ptr", "<", "int", ">", "p", ";"] ∧
    preprocess 2 (define "boost" (.object ["boost"])
          (processHeader sampleIncluder emptyUnit).macros)
        ["PTR", "(", "int", ")", "p", ";"] =
      some ["boost", "::", "shared_ptr", "<", "int", ">", "p", ";"] := by
  decide

/-! ## The claims -/

/-- C1: once base.h has been included, the invocation `PTR(T)` of any type
name `T` (a token sequence with balanced parentheses), where no token of
`boost::shared_ptr<T>` or after the invocation is itself a macro name, is
completely macro-replaced by exactly the tokens `boost :: shared_ptr < T >`:
`T` unchanged, nothing else added, the tokens after the invocation left as
they were. -/
theorem PTR_expands (inc : Includer) (u : TransUnit) (T tail : List Token) (fuel : Nat)
    (hfresh : isDefined "LSST_BASE_BASE_H" u.macros = false) (hT : Balanced T)
    (hno : NoMacro (processHeader inc u).macros
      (["boost", "::", "shared_ptr", "<"] ++ T ++ [">"] ++ tail)) :
    preprocess (fuel + 1) (processHeader inc u).macros ("PTR" :: "(" :: (T ++ ")" :: tail)) =
      some (["boost", "::", "shared_ptr", "<"] ++ T ++ [">"] ++ tail) := by
  have hm := lookup_PTR_processHeader inc u hfresh
  rw [PTR_shape] at hm
  have hT2 : NoMacro (processHeader inc u).macros (spell (plain T)) := by
    intro x hx
    rw [spell_plain] at hx
    exact hno x (by simp [hx])
  have h := preprocess_variadic (processHeader inc u).macros "PTR"
    ["boost", "::", "shared_ptr", "<"] [">"] (T ++ ")" :: tail) T tail (plain T) fuel hm
    (by decide) (by decide) (matchParen_balanced T tail hT) (expand_inert _ fuel _ hT2)
    (by rw [spell_plain]; exact hno)
  rw [spell_plain] at h
  exact h

/-- C1, at a concrete input: after the header, `PTR(Widget) w;` becomes
`boost::shared_ptr<Widget> w;`. -/
theorem PTR_expands_witness :
    isDefined "LSST_BASE_BASE_H" emptyUnit.macros = false ∧ Balanced ["Widget"] ∧
    NoMacro (processHeader sampleIncluder emptyUnit).macros
      (["boost", "::", "shared_ptr", "<"] ++ ["Widget"] ++ [">"] ++ ["w", ";"]) ∧
    preprocess (0 + 1) (processHeader sampleIncluder emptyUnit).macros
        ("PTR" :: "(" :: (["Widget"] ++ ")" :: ["w", ";"])) =
      some (["boost", "::", "shared_ptr", "<"] ++ ["Widget"] ++ [">"] ++ ["w", ";"]) :=
  ⟨by decide, by decide, by decide,
    PTR_expands sampleIncluder emptyUnit ["Widget"] ["w", ";"] 0
      (by decide) (by decide) (by decide)⟩

/-- C2: once base.h has been included, the invocation `CONST_PTR(T)` of any
type name `T`, where no token of `boost::shared_ptr<const T>` or after the
invocation is itself a macro name, is completely macro-replaced by exactly the
tokens `boost :: shared_ptr < const T >`: the template of `PTR`, with the
element type const-qualified. -/
theorem CONST_PTR_expands (inc : Includer) (u : TransUnit) (T tail : List Token) (fuel : Nat)
    (hfresh : isDefined "LSST_BASE_BASE_H" u.macros = false) (hT : Balanced T)
    (hno : NoMacro (processHeader inc u).macros
      (["boost", "::", "shared_ptr", "<", "const"] ++ T ++ [">"] ++ tail)) :
    preprocess (fuel + 1) (processHeader inc u).macros
        ("CONST_PTR" :: "(" :: (T ++ ")" :: tail)) =
      some (["boost", "::", "shared_ptr", "<", "const"] ++ T ++ [">"] ++ tail) := by
  have hm := lookup_CONST_PTR_processHeader inc u hfresh
  rw [CONST_PTR_shape] at hm
  have hT2 : NoMacro (processHeader inc u).macros (spell (plain T)) := by
    intro x hx
    rw [spell_plain] at hx
    exact hno x (by simp [hx])
  have h := preprocess_variadic (processHeader inc u).macros "CONST_PTR"
    ["boost", "::", "shared_ptr", "<", "const"] [">"] (T ++ ")" :: tail) T tail (plain T) fuel hm
    (by decide) (by decide) (matchParen_balanced T tail hT) (expand_inert _ fuel _ hT2)
    (by rw [spell_plain]; exact hno)
  rw [spell_plain] at h
  exact h

/-- C2, at a concrete input: after the header, `CONST_PTR(Widget) w;` becomes
`boost::shared_ptr<const Widget> w;`. -/
theorem CONST_PTR_expands_witness :
    isDefined "LSST_BASE_BASE_H" emptyUnit.macros = false ∧ Balanced ["Widget"] ∧
    NoMacro (processHeader sampleIncluder emptyUnit).macros
      (["boost", "::", "shared_ptr", "<", "const"] ++ ["Widget"] ++ [">"] ++ ["w", ";"]) ∧
    preprocess (0 + 1) (processHeader sampleIncluder emptyUnit).macros
        ("CONST_PTR" :: "(" :: (["Widget"] ++ ")" :: ["w", ";"])) =
      some (["boost", "::", "shared_ptr", "<", "const"] ++ ["Widget"] ++ [">"] ++ ["w", ";"]) :=
  ⟨by decide, by decide, by decide,
    CONST_PTR_expands sampleIncluder emptyUnit ["Widget"] ["w", ";"] 0
      (by decide) (by decide) (by decide)⟩


/-- C5: spec-modelled.  After a handle to a new object is constructed, and
through any sequence of copies, destructions and resets of handles, the
handles sharing the object are distinct, the share count is their number, and
the number of times the object has been destroyed is one if no handle is left
and zero if a handle still shares it: the object is destroyed exactly once,
by the release of its last handle, and never earlier.  A last release after a
copy is shown at a concrete sequence. -/
theorem destroyed_exactly_once (ops : List HandleOp) :
    (runOps ops construct).owners.Nodup ∧
    (runOps ops construct).useCount = (runOps ops construct).owners.length ∧
    (runOps ops construct).destroyed = (if (runOps ops construct).owners = [] then 1 else 0) ∧
    runOps [.copy 0, .destroy 0] construct =
      { owners := [1], useCount := 1, destroyed := 0, nextHandle := 2 } ∧
    runOps [.copy 0, .destroy 0, .reset 1] construct =
      { owners := [], useCount := 0, destroyed := 1, nextHandle := 2 } := by
  have hinv := runOps_invariant ops construct construct_invariant
  exact ⟨hinv.1, hinv.2.2.1, hinv.2.2.2, by decide, by decide⟩

/-- C6: processing base.h where it has not been included before emits no
token of its own, only those of the included file; it defines
`LSST_BASE_BASE_H`, `PTR` and `CONST_PTR`, and every other macro name has the
definition that the included file leaves it with; the definition of the guard
itself changes no other name, so that with an include that defines nothing
and emits nothing the output is unchanged and every name other than the three
keeps its definition. -/
theorem header_only_defines_macros (inc : Includer) (u : TransUnit)
    (hfresh : isDefined "LSST_BASE_BASE_H" u.macros = false) :
    (processHeader inc u).out = u.out ++
      (inc "boost/shared_ptr.hpp" (define "LSST_BASE_BASE_H" LSST_BASE_BASE_H u.macros)).2 ∧
    lookup "PTR" (processHeader inc u).macros = some PTR ∧
    lookup "CONST_PTR" (processHeader inc u).macros = some CONST_PTR ∧
    (∀ n, n ≠ "PTR" → n ≠ "CONST_PTR" →
      lookup n (processHeader inc u).macros =
        lookup n (inc "boost/shared_ptr.hpp"
          (define "LSST_BASE_BASE_H" LSST_BASE_BASE_H u.macros)).1) ∧
    lookup "LSST_BASE_BASE_H" (define "LSST_BASE_BASE_H" LSST_BASE_BASE_H u.macros) =
      some LSST_BASE_BASE_H ∧
    (∀ n, n ≠ "LSST_BASE_BASE_H" →
      lookup n (define "LSST_BASE_BASE_H" LSST_BASE_BASE_H u.macros) = lookup n u.macros) ∧
    (processHeader noInclude u).out = u.out ∧
    lookup "LSST_BASE_BASE_H" (processHeader noInclude u).macros = some LSST_BASE_BASE_H ∧
    (∀ n, n ≠ "LSST_BASE_BASE_H" → n ≠ "PTR" → n ≠ "CONST_PTR" →
      lookup n (processHeader noInclude u).macros = lookup n u.macros) := by
  have hframe : ∀ (i : Includer) (n : String), n ≠ "PTR" → n ≠ "CONST_PTR" →
      lookup n (processHeader i u).macros =
        lookup n (i "boost/shared_ptr.hpp"
          (define "LSST_BASE_BASE_H" LSST_BASE_BASE_H u.macros)).1 := by
    intro i n h1 h2
    rw [processHeader_fresh i u hfresh]
    simp only []
    rw [lookup_define_ne n "CONST_PTR" _ _ h2, lookup_define_ne n "PTR" _ _ h1]
  refine ⟨?_, lookup_PTR_processHeader inc u hfresh, lookup_CONST_PTR_processHeader inc u hfresh,
    hframe inc, lookup_define_same _ _ _, fun n hn => lookup_define_ne n _ _ _ hn, ?_, ?_, ?_⟩
  · rw [processHeader_fresh inc u hfresh]
  · rw [processHeader_fresh noInclude u hfresh]
    simp [noInclude]
  · rw [hframe noInclude "LSST_BASE_BASE_H" (by decide) (by decide)]
    exact lookup_define_same _ _ _
  · intro n h0 h1 h2
    rw [hframe noInclude n h1 h2]
    exact lookup_define_ne n _ _ _ h0

/-- C6, at a concrete input: the header processed in an empty translation
unit, with an include that defines one macro and contributes three tokens. -/
theorem header_only_defines_macros_witness :
    isDefined "LSST_BASE_BASE_H" emptyUnit.macros = false ∧
    (processHeader sampleIncluder emptyUnit).out = emptyUnit.out ++
      (sampleIncluder "boost/shared_ptr.hpp"
        (define "LSST_BASE_BASE_H" LSST_BASE_BASE_H emptyUnit.macros)).2 ∧
    lookup "PTR" (processHeader sampleIncluder emptyUnit).macros = some PTR ∧
    lookup "CONST_PTR" (processHeader sampleIncluder emptyUnit).macros = some CONST_PTR ∧
    lookup "BOOST_SHARED_PTR_HPP_INCLUDED" (processHeader sampleIncluder emptyUnit).macros =
      lookup "BOOST_SHARED_PTR_HPP_INCLUDED" (sampleIncluder "boost/shared_ptr.hpp"
        (define "LSST_BASE_BASE_H" LSST_BASE_BASE_H emptyUnit.macros)).1 ∧
    (processHeader noInclude emptyUnit).out = emptyUnit.out ∧
    lookup "FOO" (processHeader noInclude emptyUnit).macros = lookup "FOO" emptyUnit.macros :=
  ⟨by decide,
    (header_only_defines_macros sampleIncluder emptyUnit (by decide)).1,
    (header_only_defines_macros sampleIncluder emptyUnit (by decide)).2.1,
    (header_only_defines_macros sampleIncluder emptyUnit (by decide)).2.2.1,
    (header_only_defines_macros sampleIncluder emptyUnit (by decide)).2.2.2.1
      "BOOST_SHARED_PTR_HPP_INCLUDED" (by decide) (by decide),
    (header_only_defines_macros sampleIncluder emptyUnit (by decide)).2.2.2.2.2.2.1,
    (header_only_defines_macros sampleIncluder emptyUnit (by decide)).2.2.2.2.2.2.2.2
      "FOO" (by decide) (by decide) (by decide)⟩

/-- C7, as stated, fails: the argument tokens of `PTR(()` are not balanced,
and the invocation has no expansion with any amount of fuel; the preprocessor
rejects it as unterminated, before any type checking. -/
theorem unterminated_invocation_rejected :
    ¬ ∃ fuel out, preprocess fuel (processHeader sampleIncluder emptyUnit).macros
      ["PTR", "(", "(", ")"] = some out := by
  rintro ⟨fuel, out, h⟩
  have hnone : preprocess fuel (processHeader sampleIncluder emptyUnit).macros
      ["PTR", "(", "(", ")"] = none := by
    cases fuel <;> rfl
  rw [hnone] at h
  exact Option.noConfusion h

/-- C7, amended: neither macro checks its arguments.  Once base.h has been
included, for every token sequence that follows `PTR(` or `CONST_PTR(` and
holds, like the replacement lists, no macro name, the invocation is replaced
exactly when its parentheses close, whatever the tokens between them are (a
type or not, none at all), and the replacement is then the replacement list
with these tokens substituted; an invocation whose parentheses do not close
has no replacement. -/
theorem expansion_fails_only_unterminated (inc : Includer) (u : TransUnit) (rest : List Token)
    (fuel : Nat) (hfresh : isDefined "LSST_BASE_BASE_H" u.macros = false)
    (hno : NoMacro (processHeader inc u).macros
      (["boost", "::", "shared_ptr", "<", "const", ">"] ++ rest)) :
    preprocess (fuel + 1) (processHeader inc u).macros ("PTR" :: "(" :: rest) =
      (matchParen rest 0).map
        (fun r => ["boost", "::", "shared_ptr", "<"] ++ r.1 ++ [">"] ++ r.2) ∧
    preprocess (fuel + 1) (processHeader inc u).macros ("CONST_PTR" :: "(" :: rest) =
      (matchParen rest 0).map
        (fun r => ["boost", "::", "shared_ptr", "<", "const"] ++ r.1 ++ [">"] ++ r.2) := by
  have hm := lookup_PTR_processHeader inc u hfresh
  have hm2 := lookup_CONST_PTR_processHeader inc u hfresh
  rw [PTR_shape] at hm
  rw [CONST_PTR_shape] at hm2
  have hno1 : NoMacro (processHeader inc u).macros
      (["boost", "::", "shared_ptr", "<"] ++ [">"] ++ rest) :=
    noMacro_subset _ _ _ hno (List.append_subset.mpr
      ⟨List.Subset.trans (by decide) (List.subset_append_left _ _),
        List.subset_append_right _ _⟩)
  have hno2 : NoMacro (processHeader inc u).macros
      (["boost", "::", "shared_ptr", "<", "const"] ++ [">"] ++ rest) :=
    noMacro_subset _ _ _ hno (List.append_subset.mpr
      ⟨List.Subset.trans (by decide) (List.subset_append_left _ _),
        List.subset_append_right _ _⟩)
  exact ⟨preprocess_variadic_inert _ "PTR" ["boost", "::", "shared_ptr", "<"] [">"] rest fuel hm
      (by decide) (by decide) hno1,
    preprocess_variadic_inert _ "CONST_PTR" ["boost", "::", "shared_ptr", "<", "const"] [">"]
      rest fuel hm2 (by decide) (by decide) hno2⟩

/-- C7, amended, at concrete inputs: the argument `42 + x` is no type, the
argument of `CONST_PTR()` is empty; both invocations are replaced. -/
theorem expansion_fails_only_unterminated_witness :
    isDefined "LSST_BASE_BASE_H" emptyUnit.macros = false ∧
    NoMacro (processHeader sampleIncluder emptyUnit).macros
      (["boost", "::", "shared_ptr", "<", "const", ">"] ++ ["42", "+", "x", ")", ";"]) ∧
    (preprocess (0 + 1) (processHeader sampleIncluder emptyUnit).macros
        ("PTR" :: "(" :: ["42", "+", "x", ")", ";"]) =
      some ["boost", "::", "shared_ptr", "<", "42", "+", "x", ">", ";"] ∧
    preprocess (0 + 1) (processHeader sampleIncluder emptyUnit).macros
        ("CONST_PTR" :: "(" :: ["42", "+", "x", ")", ";"]) =
      some ["boost", "::", "shared_ptr", "<", "const", "42", "+", "x", ">", ";"]) :=
  ⟨by decide, by decide,
    expansion_fails_only_unterminated sampleIncluder emptyUnit ["42", "+", "x", ")", ";"] 0
      (by decide) (by decide)⟩

/-- C8: once base.h has been included, an invocation written with the
arguments `a1 , ... , an` (each a token sequence with balanced parentheses and
no comma outside them), where no token of the arguments, of the replacement
lists or after the invocation is a macro name, is not cut at a comma: `PTR` is
replaced by `boost :: shared_ptr <`, all the arguments in their order with the
commas between them, and `>`; `CONST_PTR` by the same with the single token
`const` before the first argument. -/
theorem variadic_arguments_kept (inc : Includer) (u : TransUnit) (args : List (List Token))
    (tail : List Token) (fuel : Nat) (hfresh : isDefined "LSST_BASE_BASE_H" u.macros = false)
    (hargs : ∀ a ∈ args, IsArg a)
    (hno : NoMacro (processHeader inc u).macros
      (["boost", "::", "shared_ptr", "<", "const"] ++ joinArgs args ++ [">"] ++ tail)) :
    preprocess (fuel + 1) (processHeader inc u).macros
        ("PTR" :: "(" :: (joinArgs args ++ ")" :: tail)) =
      some (["boost", "::", "shared_ptr", "<"] ++ joinArgs args ++ [">"] ++ tail) ∧
    preprocess (fuel + 1) (processHeader inc u).macros
        ("CONST_PTR" :: "(" :: (joinArgs args ++ ")" :: tail)) =
      some (["boost", "::", "shared_ptr", "<"] ++ "const" :: joinArgs args ++ [">"] ++ tail) := by
  have hm := lookup_PTR_processHeader inc u hfresh
  have hm2 := lookup_CONST_PTR_processHeader inc u hfresh
  rw [PTR_shape] at hm
  rw [CONST_PTR_shape] at hm2
  have hbal : Balanced (joinArgs args) := balanced_joinArgs args hargs
  have hmp := matchParen_balanced (joinArgs args) tail hbal
  have hT : NoMacro (processHeader inc u).macros (spell (plain (joinArgs args))) := by
    rw [spell_plain]
    exact noMacro_subset _ _ _ hno (List.Subset.trans (List.subset_append_right _ _)
      (List.Subset.trans (List.subset_append_left _ [">"]) (List.subset_append_left _ tail)))
  have hE := expand_inert (processHeader inc u).macros fuel _ hT
  have hno1 : NoMacro (processHeader inc u).macros
      (["boost", "::", "shared_ptr", "<"] ++ spell (plain (joinArgs args)) ++ [">"] ++ tail) := by
    rw [spell_plain]
    refine noMacro_subset _ _ _ hno ?_
    intro x hx
    simp only [List.mem_append, List.mem_cons, List.mem_singleton, List.not_mem_nil,
      or_false] at hx ⊢
    rcases hx with (((h | h | h | h) | h) | h) | h <;> simp [h]
  have hno2 : NoMacro (processHeader inc u).macros
      (["boost", "::", "shared_ptr", "<", "const"] ++ spell (plain (joinArgs args)) ++ [">"] ++
        tail) := by
    rw [spell_plain]
    exact hno
  have h1 := preprocess_variadic (processHeader inc u).macros "PTR"
    ["boost", "::", "shared_ptr", "<"] [">"] _ _ tail _ fuel hm (by decide) (by decide) hmp hE
    hno1
  have h2 := preprocess_variadic (processHeader inc u).macros "CONST_PTR"
    ["boost", "::", "shared_ptr", "<", "const"] [">"] _ _ tail _ fuel hm2 (by decide) (by decide)
    hmp hE hno2
  rw [spell_plain] at h1 h2
  refine ⟨h1, ?_⟩
  rw [h2]
  simp only [List.append_assoc, List.cons_append, List.nil_append]

/-- C8, at a concrete input: `PTR(std::pair<int,int>) p;` is written with the
two arguments `std::pair<int` and `int>` and becomes
`boost::shared_ptr<std::pair<int,int>> p;`. -/
theorem variadic_arguments_kept_witness :
    isDefined "LSST_BASE_BASE_H" emptyUnit.macros = false ∧
    (∀ a ∈ ([["std", "::", "pair", "<", "int"], ["int", ">"]] : List (List Token)), IsArg a) ∧
    NoMacro (processHeader sampleIncluder emptyUnit).macros
      (["boost", "::", "shared_ptr", "<", "const"] ++
        joinArgs [["std", "::", "pair", "<", "int"], ["int", ">"]] ++ [">"] ++ ["p", ";"]) ∧
    (preprocess (0 + 1) (processHeader sampleIncluder emptyUnit).macros
        ["PTR", "(", "std", "::", "pair", "<", "int", ",", "int", ">", ")", "p", ";"] =
      some ["boost", "::", "shared_ptr", "<", "std", "::", "pair", "<", "int", ",", "int", ">",
        ">", "p", ";"] ∧
    preprocess (0 + 1) (processHeader sampleIncluder emptyUnit).macros
        ["CONST_PTR", "(", "std", "::", "pair", "<", "int", ",", "int", ">", ")", "p", ";"] =
      some ["boost", "::", "shared_ptr", "<", "const", "std", "::", "pair", "<", "int", ",",
        "int", ">", ">", "p", ";"]) :=
  ⟨by decide, by decide, by decide,
    variadic_arguments_kept sampleIncluder emptyUnit
      [["std", "::", "pair", "<", "int"], ["int", ">"]] ["p", ";"] 0
      (by decide) (by decide) (by decide)⟩

/-- C9: once base.h has been included, for every argument token sequence `T`
with balanced parentheses, where no token of `boost::shared_ptr<const T>` or
after the invocation is a macro name, `CONST_PTR(T)` and `PTR(const T)` are
both replaced, and by the same token sequence, `boost :: shared_ptr < const T >`. -/
theorem CONST_PTR_is_PTR_of_const (inc : Includer) (u : TransUnit) (T tail : List Token)
    (fuel : Nat) (hfresh : isDefined "LSST_BASE_BASE_H" u.macros = false) (hT : Balanced T)
    (hno : NoMacro (processHeader inc u).macros
      (["boost", "::", "shared_ptr", "<", "const"] ++ T ++ [">"] ++ tail)) :
    preprocess (fuel + 1) (processHeader inc u).macros
        ("CONST_PTR" :: "(" :: (T ++ ")" :: tail)) =
      some (["boost", "::", "shared_ptr", "<", "const"] ++ T ++ [">"] ++ tail) ∧
    preprocess (fuel + 1) (processHeader inc u).macros
        ("PTR" :: "(" :: "const" :: (T ++ ")" :: tail)) =
      some (["boost", "::", "shared_ptr", "<", "const"] ++ T ++ [">"] ++ tail) := by
  have hm := lookup_PTR_processHeader inc u hfresh
  have hm2 := lookup_CONST_PTR_processHeader inc u hfresh
  rw [PTR_shape] at hm
  rw [CONST_PTR_shape] at hm2
  have hT2 : NoMacro (processHeader inc u).macros (spell (plain T)) := by
    rw [spell_plain]
    exact noMacro_subset _ _ _ hno (List.Subset.trans (List.subset_append_right _ _)
      (List.Subset.trans (List.subset_append_left _ [">"]) (List.subset_append_left _ tail)))
  have hcT : NoMacro (processHeader inc u).macros (spell (plain ("const" :: T))) := by
    rw [spell_plain]
    refine noMacro_subset _ _ _ hno ?_
    intro x hx
    simp only [List.mem_append, List.mem_cons, List.mem_singleton, List.not_mem_nil,
      or_false] at hx ⊢
    rcases hx with h | h <;> simp [h]
  have hbal : Balanced ("const" :: T) := by
    have h1 : ¬ ("const" : String) = "(" := by decide
    have h2 : ¬ ("const" : String) = ")" := by decide
    simp only [Balanced, parenScan, h1, h2, if_false]
    exact hT
  have hno1 : NoMacro (processHeader inc u).macros
      (["boost", "::", "shared_ptr", "<", "const"] ++ spell (plain T) ++ [">"] ++ tail) := by
    rw [spell_plain]
    exact hno
  have hno2 : NoMacro (processHeader inc u).macros
      (["boost", "::", "shared_ptr", "<"] ++ spell (plain ("const" :: T)) ++ [">"] ++ tail) := by
    rw [spell_plain]
    refine noMacro_subset _ _ _ hno ?_
    intro x hx
    simp only [List.mem_append, List.mem_cons, List.mem_singleton, List.not_mem_nil,
      or_false] at hx ⊢
    rcases hx with (((h | h | h | h) | h | h) | h) | h <;> simp [h]
  have h1 := preprocess_variadic (processHeader inc u).macros "CONST_PTR"
    ["boost", "::", "shared_ptr", "<", "const"] [">"] (T ++ ")" :: tail) T tail (plain T) fuel hm2
    (by decide) (by decide) (matchParen_balanced T tail hT) (expand_inert _ fuel _ hT2) hno1
  have h2 := preprocess_variadic (processHeader inc u).macros "PTR"
    ["boost", "::", "shared_ptr", "<"] [">"] (("const" :: T) ++ ")" :: tail) ("const" :: T) tail
    (plain ("const" :: T)) fuel hm (by decide) (by decide)
    (matchParen_balanced ("const" :: T) tail hbal) (expand_inert _ fuel _ hcT) hno2
  rw [spell_plain] at h1 h2
  refine ⟨h1, ?_⟩
  rw [List.cons_append] at h2
  rw [h2]
  simp only [List.append_assoc, List.cons_append, List.nil_append]

/-- C9, at a concrete input: `CONST_PTR(Widget) w;` and `PTR(const Widget) w;`
both become `boost::shared_ptr<const Widget> w;`. -/
theorem CONST_PTR_is_PTR_of_const_witness :
    isDefined "LSST_BASE_BASE_H" emptyUnit.macros = false ∧ Balanced ["Widget"] ∧
    NoMacro (processHeader sampleIncluder emptyUnit).macros
      (["boost", "::", "shared_ptr", "<", "const"] ++ ["Widget"] ++ [">"] ++ ["w", ";"]) ∧
    (preprocess (0 + 1) (processHeader sampleIncluder emptyUnit).macros
        ("CONST_PTR" :: "(" :: (["Widget"] ++ ")" :: ["w", ";"])) =
      some (["boost", "::", "shared_ptr", "<", "const"] ++ ["Widget"] ++ [">"] ++ ["w", ";"]) ∧
    preprocess (0 + 1) (processHeader sampleIncluder emptyUnit).macros
        ("PTR" :: "(" :: "const" :: (["Widget"] ++ ")" :: ["w", ";"])) =
      some (["boost", "::", "shared_ptr", "<", "const"] ++ ["Widget"] ++ [">"] ++ ["w", ";"])) :=
  ⟨by decide, by decide, by decide,
    CONST_PTR_is_PTR_of_const sampleIncluder emptyUnit ["Widget"] ["w", ";"] 0
      (by decide) (by decide) (by decide)⟩

/-- C10: provided the included file does not undefine the guard, processing
base.h twice gives the same macro table and the same emitted tokens as
processing it once, because after the first time `LSST_BASE_BASE_H` is
defined; and wherever `LSST_BASE_BASE_H` is already defined the whole header
is skipped: the translation unit, with the definitions of `PTR` and
`CONST_PTR` in it, is left as it was. -/
theorem include_idempotent (inc : Includer) (u : TransUnit)
    (hinc : ∀ m, isDefined "LSST_BASE_BASE_H" m = true →
      isDefined "LSST_BASE_BASE_H" (inc "boost/shared_ptr.hpp" m).1 = true) :
    processHeader inc (processHeader inc u) = processHeader inc u ∧
    isDefined "LSST_BASE_BASE_H" (processHeader inc u).macros = true ∧
    processHeader inc u =
      (if isDefined "LSST_BASE_BASE_H" u.macros = true then u
       else
        { macros := define "CONST_PTR" CONST_PTR (define "PTR" PTR
            (inc "boost/shared_ptr.hpp"
              (define "LSST_BASE_BASE_H" LSST_BASE_BASE_H u.macros)).1),
          out := u.out ++ (inc "boost/shared_ptr.hpp"
              (define "LSST_BASE_BASE_H" LSST_BASE_BASE_H u.macros)).2 }) := by
  have hguard : isDefined "LSST_BASE_BASE_H" (processHeader inc u).macros = true := by
    cases hdef : isDefined "LSST_BASE_BASE_H" u.macros with
    | true => rw [processHeader_defined inc u hdef]; exact hdef
    | false =>
      rw [processHeader_fresh inc u hdef]
      have h0 : isDefined "LSST_BASE_BASE_H"
          (define "LSST_BASE_BASE_H" LSST_BASE_BASE_H u.macros) = true := by
        simp [isDefined, lookup_define_same]
      have h1 := hinc _ h0
      simp only [isDefined] at h1 ⊢
      rw [lookup_define_ne "LSST_BASE_BASE_H" "CONST_PTR" _ _ (by decide),
        lookup_define_ne "LSST_BASE_BASE_H" "PTR" _ _ (by decide)]
      exact h1
  refine ⟨processHeader_defined inc _ hguard, hguard, ?_⟩
  cases hdef : isDefined "LSST_BASE_BASE_H" u.macros with
  | true => simp [processHeader_defined inc u hdef]
  | false => simp [processHeader_fresh inc u hdef]

/-- C10, at a concrete input: the header included twice in an empty
translation unit, with an include that defines a macro of its own. -/
theorem include_idempotent_witness :
    (∀ m, isDefined "LSST_BASE_BASE_H" m = true →
      isDefined "LSST_BASE_BASE_H" (sampleIncluder "boost/shared_ptr.hpp" m).1 = true) ∧
    (processHeader sampleIncluder (processHeader sampleIncluder emptyUnit) =
      processHeader sampleIncluder emptyUnit ∧
    isDefined "LSST_BASE_BASE_H" (processHeader sampleIncluder emptyUnit).macros = true ∧
    processHeader sampleIncluder emptyUnit =
      (if isDefined "LSST_BASE_BASE_H" emptyUnit.macros = true then emptyUnit
       else
        { macros := define "CONST_PTR" CONST_PTR (define "PTR" PTR
            (sampleIncluder "boost/shared_ptr.hpp"
              (define "LSST_BASE_BASE_H" LSST_BASE_BASE_H emptyUnit.macros)).1),
          out := emptyUnit.out ++ (sampleIncluder "boost/shared_ptr.hpp"
              (define "LSST_BASE_BASE_H" LSST_BASE_BASE_H emptyUnit.macros)).2 })) :=
  have hs : ∀ m, isDefined "LSST_BASE_BASE_H" m = true →
      isDefined "LSST_BASE_BASE_H" (sampleIncluder "boost/shared_ptr.hpp" m).1 = true := by
    intro m hm
    simp only [isDefined, sampleIncluder] at hm ⊢
    rw [lookup_define_ne "LSST_BASE_BASE_H" "BOOST_SHARED_PTR_HPP_INCLUDED" _ _ (by decide)]
    exact hm
  ⟨hs, include_idempotent sampleIncluder emptyUnit hs⟩

end LsstBase
